import Mathlib

/-!
Shallow embedding of the temporal-independence engine of the Serval
camera-trap curation tool (src/tags.rs, src/utils.rs).

Observations are flat records (path, deployment, tag, time).  Timestamps are
modelled as integers counting seconds (chrono `NaiveDateTime` subtraction
yields a signed duration; `Duration::try_minutes m` is `m * 60` seconds).
Polars dataframes are modelled as Lean lists of records, dataframe
operations as list functions.
-/

/-- One observation row of the analysis table `df_deployment`
(columns path, deployment, time, target-tag) after the datetime column has
been parsed.  `time` is in seconds. -/
structure Obs where
  path : String
  deployment : String
  tag : String
  time : Int
deriving DecidableEq, Repr

/-- A raw row of `df_deployment` before `drop_nulls`: every column of a
polars frame is nullable, which we model with `Option` fields. -/
structure RawObs where
  path : Option String
  deployment : Option String
  tag : Option String
  time : Option Int
deriving DecidableEq, Repr

/-- Constant `DEFAULT_EXCLUDE_TAGS` from src/tags.rs: tags excluded from the
temporal-independence analysis by default. -/
def DEFAULT_EXCLUDE_TAGS : List String :=
  ["", "Blank", "Useless data", "Unidentified", "Human", "Unknown", "Blur"]

/-- Function `is_temporal_independent` from src/utils.rs: parses the two timestamps
and returns `dt - dt_ref >= Duration::try_minutes min_delta_time`.  We model
the already-parsed timestamps as integer seconds, so the test is
`min_delta_time * 60 <= time - time_ref`.  Note the comparison is on the
signed difference and is non-strict (`>=`). -/
def is_temporal_independent (time_ref time : Int) (min_delta_time : Int) : Bool :=
  decide (min_delta_time * 60 ≤ time - time_ref)

/-- The row-wise conversion performed by `drop_nulls(None)`: a raw row
survives exactly when every column is non-null. -/
def rawToObs (q : RawObs) : Option Obs :=
  match q.path, q.deployment, q.tag, q.time with
  | some p, some d, some g, some t => some ⟨p, d, g, t⟩
  | _, _, _, _ => none

/-- Operation `drop_nulls(None)` on the lazy frame: keep exactly the rows with no
null column. -/
def dropNulls (l : List RawObs) : List Obs :=
  l.filterMap rawToObs

/-- The grouping key used by `unique(Some(cols([deployment, time, target])),
UniqueKeepStrategy::Any)`. -/
def tripleKey (r : Obs) : String × Int × String :=
  (r.deployment, r.time, r.tag)

/-- Generic accumulator pass keeping, for each key value, only the first row
carrying it.  Models both polars `unique(keep = Any)` (one arbitrary row per
key; we realise the choice as the first row) and the key enumeration of
`group_by_stable` (first-seen key order). -/
def uniqueByGo {β κ : Type} [DecidableEq κ] (key : β → κ) (seen : List κ) :
    List β → List β
  | [] => []
  | x :: xs =>
    if key x ∈ seen then uniqueByGo key seen xs
    else x :: uniqueByGo key (key x :: seen) xs

/-- Operation `unique` on columns (deployment, time, tag) with keep strategy `Any`,
realised as keeping the first row of each triple. -/
def dedupTriples (l : List Obs) : List Obs :=
  uniqueByGo tripleKey [] l

/-- First-seen-order key list of a column, as enumerated by
`group_by_stable`. -/
def firstSeen {κ : Type} [DecidableEq κ] (l : List κ) : List κ :=
  uniqueByGo id [] l

/-- The cleaning stage of `get_temporal_independence` (src/tags.rs):
`drop_nulls`, then (unless `no_exclude`) removal of rows whose tag is in
`DEFAULT_EXCLUDE_TAGS`, then `unique` on (deployment, time, tag). -/
def cleanRows (no_exclude : Bool) (l : List RawObs) : List Obs :=
  if no_exclude then
    dedupTriples (dropNulls l)
  else
    dedupTriples ((dropNulls l).filter (fun r => !(DEFAULT_EXCLUDE_TAGS.contains r.tag)))

/-- Lexicographic comparison of character lists by code point, the string
order a polars `sort` on a string column realises. -/
def charListLe : List Char → List Char → Bool
  | [], _ => true
  | _ :: _, [] => false
  | a :: as, b :: bs =>
    if a.toNat < b.toNat then true
    else if b.toNat < a.toNat then false
    else charListLe as bs

/-- Lexicographic string comparison. -/
def strLe (a b : String) : Bool := charListLe a.data b.data

/-- Key comparison `time <= time` used by the first `sort(["time"])`. -/
def timeLe (a b : Obs) : Bool := decide (a.time ≤ b.time)

/-- Key comparison used by the second sort, on the target tag column. -/
def tagLe (a b : Obs) : Bool := strLe a.tag b.tag

/-- Key comparison used by the third sort, on the deployment column. -/
def depLe (a b : Obs) : Bool := strLe a.deployment b.deployment

/-- Contract of one polars `sort` call with `SortMultipleOptions::default()`:
the output is a permutation of the input that is non-decreasing in the sort
key.  `maintain_order` defaults to `false`, so the order of key-equal rows is
NOT constrained: any such permutation is an admissible result. -/
def SortStepSpec (le : Obs → Obs → Bool) (input output : List Obs) : Prop :=
  output.Perm input ∧ output.Pairwise (fun a b => le a b = true)

/-- Insertion of one element by a boolean key comparison (stable: the new
element goes before the first strictly larger element, after key-equal
ones). -/
def insertKey {α : Type} (le : α → α → Bool) (a : α) : List α → List α
  | [] => [a]
  | b :: l => if le a b then a :: b :: l else b :: insertKey le a l

/-- Stable insertion sort by a boolean key comparison.  One admissible
realisation of a polars `sort` call, the one the spec's stability wording
demands (`maintain_order = true`). -/
def sortByKey {α : Type} (le : α → α → Bool) : List α → List α
  | [] => []
  | a :: l => insertKey le a (sortByKey le l)

/-- The three-pass canonical sort of `get_temporal_independence`
(`sort time`, then `sort tag-column`, then `sort deployment`), realised with
the stable sort. -/
def canonicalSort (l : List Obs) : List Obs :=
  sortByKey depLe (sortByKey tagLe (sortByKey timeLe l))

/-- The rolling-window membership count of the Policy A (`LastRecord`)
branch: rows of the same (deployment, tag) group whose time lies in the
window `(r.time - min_delta_time, r.time]` (period `min_delta_time` minutes,
offset `-min_delta_time` minutes, `ClosedWindow::Right`). -/
def windowCount (rows : List Obs) (r : Obs) (min_delta_time : Int) : Nat :=
  (rows.filter (fun s =>
    s.deployment == r.deployment && s.tag == r.tag &&
    decide (r.time - min_delta_time * 60 < s.time) && decide (s.time ≤ r.time))).length

/-- Policy A (`LastRecord`): keep exactly the rows whose rolling window
count equals 1. -/
def policyA (rows : List Obs) (min_delta_time : Int) : List Obs :=
  rows.filter (fun r => windowCount rows r min_delta_time == 1)

/-- The loop body of the Policy B (`LastIndependentRecord`) scan of
src/tags.rs: flags for the remaining rows given the current
last-independent trackers (time, tag, deployment). -/
def policyBFlags (rows : List Obs) (lt : Int) (ltag ldep : String)
    (min_delta_time : Int) : List Bool :=
  match rows with
  | [] => []
  | r :: rest =>
    if r.tag ≠ ltag ∨ r.deployment ≠ ldep ∨
        is_temporal_independent lt r.time min_delta_time = true then
      true :: policyBFlags rest r.time r.tag r.deployment min_delta_time
    else
      false :: policyBFlags rest lt ltag ldep min_delta_time

/-- Policy B flag computation.  The scan initialises the trackers from row 0
(`capture_time[0]` and friends), so an empty table panics with an
index-out-of-bounds, modelled as `none`.  Row 0 itself is always flagged
independent (`i == 0`) and sets the trackers to its own values. -/
def policyB (rows : List Obs) (min_delta_time : Int) : Option (List Bool) :=
  match rows with
  | [] => none
  | r0 :: rest =>
    some (true :: policyBFlags rest r0.time r0.tag r0.deployment min_delta_time)

/-- Filtering of a dataframe by a boolean mask series, row by row. -/
def maskFilter : List Obs → List Bool → List Obs
  | r :: rs, b :: bs => if b then r :: maskFilter rs bs else maskFilter rs bs
  | _, _ => []

/-- The Policy B independence result: the sorted rows filtered by the scan's
flags (`none` models the panic on an empty table). -/
def independentB (rows : List Obs) (min_delta_time : Int) : Option (List Obs) :=
  (policyB rows min_delta_time).map (fun flags => maskFilter rows flags)

/-- Operation `with_row_index("event_id", Some(1))` on the independence result:
prepend a row index starting at 1. -/
def withRowIndex (l : List Obs) : List (Nat × Obs) :=
  l.enum.map (fun p => (p.1 + 1, p.2))

/-- Aggregation `group_by_stable([deployment, tag]).agg(count)`: one row per
first-seen (deployment, tag) key with the number of rows carrying it. -/
def countByDepTag (l : List Obs) : List ((String × String) × Nat) :=
  (firstSeen (l.map (fun r => (r.deployment, r.tag)))).map
    (fun k => (k, l.countP (fun r => decide ((r.deployment, r.tag) = k))))

/-- Aggregation `group_by_stable([species]).agg(count)`: one row per first-seen tag with
the number of rows carrying it. -/
def countByTag (l : List Obs) : List (String × Nat) :=
  (firstSeen (l.map (fun r => r.tag))).map
    (fun t => (t, l.countP (fun r => decide (r.tag = t))))

/-- The independence policy selector read from the terminal
(`delta_time_compared_to`). -/
inductive Policy where
  | LastIndependentRecord
  | LastRecord
deriving DecidableEq, Repr

/-- Enum `TagType` from src/tags.rs, selecting the analysed tag column. -/
inductive TagType where
  | Species
  | Individual
deriving DecidableEq, Repr

/-- How a run of `get_temporal_independence` can terminate abnormally:
a returned `anyhow` error, or a Rust panic. -/
inductive PipeError where
  | validation (msg : String)
  | panicked (msg : String)
deriving DecidableEq, Repr

/-- The tables produced by one run: the independence result, the
row-indexed event table (when requested), the per-deployment counts, and
the global species counts (when the target is species). -/
structure PipelineOutput where
  independence : List Obs
  events : Option (List (Nat × Obs))
  countByDep : List ((String × String) × Nat)
  countAll : Option (List (String × Nat))
deriving DecidableEq, Repr

/-- The classification stage: Policy A is the rolling-window filter, Policy
B is the stateful scan (which panics on an empty table). -/
def classify (policy : Policy) (rows : List Obs) (min_delta_time : Int) :
    Option (List Obs) :=
  match policy with
  | .LastRecord => some (policyA rows min_delta_time)
  | .LastIndependentRecord => independentB rows min_delta_time

/-- Condition `min_delta_time > 10080` triggers the "unusually large (> 1 week)"
console note; the value is still accepted. -/
def min_delta_time_unusual (min_delta_time : Int) : Bool :=
  decide (10080 < min_delta_time)

/-- The core of `get_temporal_independence` (src/tags.rs), from parameter
validation to the summary tables.  Interactive prompting, path-segment
deployment extraction and CSV writing are upstream/downstream plumbing; the
rows enter as the (nullable) columns of `df_deployment`.  The stable
`canonicalSort` stands in for the three `sort` calls. -/
def get_temporal_independence (min_delta_time : Int) (policy : Policy)
    (target : TagType) (no_exclude event : Bool) (raw : List RawObs) :
    Except PipeError PipelineOutput :=
  if min_delta_time ≤ 0 then
    .error (.validation "Invalid time difference: must be greater than 0")
  else
    let df_cleaned := cleanRows no_exclude raw
    let df_sorted := canonicalSort df_cleaned
    match classify policy df_sorted min_delta_time with
    | none => .error (.panicked "index out of bounds: the len is 0 but the index is 0")
    | some indep =>
      .ok { independence := indep
            events := if event then some (withRowIndex indep) else none
            countByDep := countByDepTag indep
            countAll := if target = TagType.Species then some (countByTag indep) else none }

/-- Distinctness of the deduplication key (deployment, time, tag) of two
rows. -/
def distinctTriple (a b : Obs) : Prop :=
  tripleKey a ≠ tripleKey b

instance (a b : Obs) : Decidable (distinctTriple a b) :=
  inferInstanceAs (Decidable (tripleKey a ≠ tripleKey b))

/-- Chain predicate for the Policy B gap property: every two consecutive
rows of the list that share deployment and tag are at least
`min_delta_time` minutes apart. -/
def gapChained (min_delta_time : Int) : List Obs → Prop
  | r1 :: r2 :: rest =>
    (r2.deployment = r1.deployment ∧ r2.tag = r1.tag →
      min_delta_time * 60 ≤ r2.time - r1.time) ∧
    gapChained min_delta_time (r2 :: rest)
  | _ => True

/-- The ordering a stable sort by `le` guarantees on a list previously
ordered by `S`: strictly `le`-smaller elements come first, and `le`-ties
keep their previous `S` order. -/
def stableRel {α : Type} (le : α → α → Bool) (S : α → α → Prop) (x y : α) : Prop :=
  (le x y = true ∧ le y x = false) ∨ (le x y = true ∧ le y x = true ∧ S x y)


/-- Rows of a deduplicated table are rows of the input. -/
lemma mem_of_mem_uniqueByGo {β κ : Type} [DecidableEq κ] (key : β → κ) :
    ∀ (l : List β) (seen : List κ) (x : β), x ∈ uniqueByGo key seen l → x ∈ l
  | [], _, _, h => by simp [uniqueByGo] at h
  | y :: ys, seen, x, h => by
    simp only [uniqueByGo] at h
    by_cases hk : key y ∈ seen
    · rw [if_pos hk] at h
      exact List.mem_cons_of_mem _ (mem_of_mem_uniqueByGo key ys seen x h)
    · rw [if_neg hk] at h
      rcases List.mem_cons.mp h with h | h
      · exact h ▸ List.mem_cons_self _ _
      · exact List.mem_cons_of_mem _ (mem_of_mem_uniqueByGo key ys (key y :: seen) x h)

/-- Keys of a deduplicated table avoid the accumulator and are pairwise
distinct. -/
lemma uniqueByGo_keys {β κ : Type} [DecidableEq κ] (key : β → κ) :
    ∀ (l : List β) (seen : List κ),
      (∀ x ∈ uniqueByGo key seen l, key x ∉ seen) ∧
      (uniqueByGo key seen l).Pairwise (fun a b => key a ≠ key b)
  | [], seen => by simp [uniqueByGo]
  | y :: ys, seen => by
    simp only [uniqueByGo]
    by_cases hk : key y ∈ seen
    · rw [if_pos hk]
      exact uniqueByGo_keys key ys seen
    · rw [if_neg hk]
      obtain ⟨hnotin, hpw⟩ := uniqueByGo_keys key ys (key y :: seen)
      refine ⟨?_, List.pairwise_cons.mpr ⟨?_, hpw⟩⟩
      · intro x hx
        rcases List.mem_cons.mp hx with rfl | hx
        · exact hk
        · exact fun hxs => hnotin x hx (List.mem_cons_of_mem _ hxs)
      · intro b hb heq
        exact hnotin b hb (List.mem_cons.mpr (Or.inl heq.symm))

/-- No deduplicated row carries a key already in the accumulator. -/
lemma uniqueByGo_countP_eq_zero {β κ : Type} [DecidableEq κ] (key : β → κ)
    (l : List β) (seen : List κ) (k : κ) (hk : k ∈ seen) :
    (uniqueByGo key seen l).countP (fun s => decide (key s = k)) = 0 := by
  rw [List.countP_eq_zero]
  intro a ha
  simp only [decide_eq_true_eq]
  intro h
  exact (uniqueByGo_keys key l seen).1 a ha (h ▸ hk)

/-- A key occurring in the input and not in the accumulator occurs exactly
once among the deduplicated rows. -/
lemma uniqueByGo_countP_eq_one {β κ : Type} [DecidableEq κ] (key : β → κ) :
    ∀ (l : List β) (seen : List κ) (k : κ), (∃ r ∈ l, key r = k) → k ∉ seen →
      (uniqueByGo key seen l).countP (fun s => decide (key s = k)) = 1
  | [], _, _, hex, _ => by simp at hex
  | y :: ys, seen, k, hex, hns => by
    simp only [uniqueByGo]
    by_cases hk : key y ∈ seen
    · rw [if_pos hk]
      obtain ⟨r, hr, hkr⟩ := hex
      rcases List.mem_cons.mp hr with rfl | hr
      · exact absurd (hkr ▸ hk) hns
      · exact uniqueByGo_countP_eq_one key ys seen k ⟨r, hr, hkr⟩ hns
    · rw [if_neg hk, List.countP_cons]
      by_cases hky : key y = k
      · subst hky
        have h0 := uniqueByGo_countP_eq_zero key ys (key y :: seen) (key y)
          (List.mem_cons_self _ _)
        simp [h0]
      · obtain ⟨r, hr, hkr⟩ := hex
        rcases List.mem_cons.mp hr with rfl | hr
        · exact absurd hkr hky
        · have hns2 : k ∉ key y :: seen := by
            intro hmem
            rcases List.mem_cons.mp hmem with h | h
            · exact hky h.symm
            · exact hns h
          have h1 := uniqueByGo_countP_eq_one key ys (key y :: seen) k ⟨r, hr, hkr⟩ hns2
          simp [h1, hky]

/-- Every input key either is in the accumulator or is represented among the
deduplicated rows. -/
lemma uniqueByGo_covers {β κ : Type} [DecidableEq κ] (key : β → κ) :
    ∀ (l : List β) (seen : List κ) (x : β), x ∈ l →
      key x ∈ seen ∨ ∃ y ∈ uniqueByGo key seen l, key y = key x
  | [], _, _, h => absurd h (List.not_mem_nil _)
  | y :: ys, seen, x, h => by
    simp only [uniqueByGo]
    by_cases hk : key y ∈ seen
    · rw [if_pos hk]
      rcases List.mem_cons.mp h with rfl | h
      · exact Or.inl hk
      · exact uniqueByGo_covers key ys seen x h
    · rw [if_neg hk]
      rcases List.mem_cons.mp h with rfl | h
      · exact Or.inr ⟨x, List.mem_cons_self _ _, rfl⟩
      · rcases uniqueByGo_covers key ys (key y :: seen) x h with hmem | ⟨z, hz, hkz⟩
        · rcases List.mem_cons.mp hmem with heq | hmem
          · exact Or.inr ⟨y, List.mem_cons_self _ _, heq.symm⟩
          · exact Or.inl hmem
        · exact Or.inr ⟨z, List.mem_cons_of_mem _ hz, hkz⟩

/-- Membership in the first-seen key enumeration. -/
lemma mem_firstSeen {κ : Type} [DecidableEq κ] (l : List κ) (k : κ) :
    k ∈ firstSeen l ↔ k ∈ l := by
  constructor
  · exact mem_of_mem_uniqueByGo id l [] k
  · intro h
    rcases uniqueByGo_covers id l [] k h with hmem | ⟨y, hy, hky⟩
    · simp at hmem
    · exact (show y = k from hky) ▸ hy

/-- First-seen keys are pairwise distinct. -/
lemma firstSeen_pairwise {κ : Type} [DecidableEq κ] (l : List κ) :
    (firstSeen l).Pairwise (· ≠ ·) :=
  (uniqueByGo_keys id l []).2

/-- Filtering by a boolean mask yields a sublist. -/
lemma maskFilter_sublist : ∀ (l : List Obs) (fl : List Bool), (maskFilter l fl).Sublist l
  | [], fl => by cases fl <;> simp [maskFilter]
  | _ :: _, [] => by simp [maskFilter]
  | r :: rs, b :: bs => by
    cases b
    · simpa [maskFilter] using (maskFilter_sublist rs bs).trans (List.sublist_cons_self r rs)
    · simpa [maskFilter] using (maskFilter_sublist rs bs).cons₂ r

/-- C6: after deduplication the triple (deployment, time, tag) is unique in
the table; for any input containing records with identical triples,
deduplication keeps exactly one of them before classification, and any
row-subset of the deduplicated table (hence any output) contains at most
one. -/
theorem dedup_unique_triples (l : List Obs) :
    (dedupTriples l).Pairwise distinctTriple ∧
    (∀ r ∈ l, (dedupTriples l).countP (fun s => decide (tripleKey s = tripleKey r)) = 1) ∧
    (∀ (flags : List Bool) (r : Obs), r ∈ l →
      (maskFilter (dedupTriples l) flags).countP
        (fun s => decide (tripleKey s = tripleKey r)) ≤ 1) := by
  refine ⟨(uniqueByGo_keys tripleKey l []).2, ?_, ?_⟩
  · intro r hr
    exact uniqueByGo_countP_eq_one tripleKey l [] (tripleKey r) ⟨r, hr, rfl⟩
      (List.not_mem_nil _)
  · intro flags r hr
    calc (maskFilter (dedupTriples l) flags).countP
          (fun s => decide (tripleKey s = tripleKey r))
        ≤ (dedupTriples l).countP (fun s => decide (tripleKey s = tripleKey r)) :=
          (maskFilter_sublist _ _).countP_le _
      _ = 1 := uniqueByGo_countP_eq_one tripleKey l [] (tripleKey r) ⟨r, hr, rfl⟩
          (List.not_mem_nil _)

/-- Witness for C6: two exact-duplicate Fox records (paths differ, triple
equal) collapse to a single row, and a masked output keeps at most one. -/
theorem dedup_unique_triples_witness :
    (dedupTriples [⟨"a", "d", "Fox", 0⟩, ⟨"b", "d", "Fox", 0⟩]).countP
      (fun s => decide (tripleKey s = tripleKey ⟨"a", "d", "Fox", 0⟩)) = 1 ∧
    (maskFilter (dedupTriples [⟨"a", "d", "Fox", 0⟩, ⟨"b", "d", "Fox", 0⟩])
      [true]).countP
      (fun s => decide (tripleKey s = tripleKey ⟨"a", "d", "Fox", 0⟩)) ≤ 1 :=
  ⟨(dedup_unique_triples [⟨"a", "d", "Fox", 0⟩, ⟨"b", "d", "Fox", 0⟩]).2.1
      ⟨"a", "d", "Fox", 0⟩ (by decide),
   (dedup_unique_triples [⟨"a", "d", "Fox", 0⟩, ⟨"b", "d", "Fox", 0⟩]).2.2
      [true] ⟨"a", "d", "Fox", 0⟩ (by decide)⟩

/-- Inversion of the `drop_nulls` row conversion: a surviving row had every
column non-null, with the same column values. -/
lemma rawToObs_eq_some {q : RawObs} {r : Obs} (h : rawToObs q = some r) :
    q.path = some r.path ∧ q.deployment = some r.deployment ∧
    q.tag = some r.tag ∧ q.time = some r.time := by
  obtain ⟨p, d, g, t⟩ := q
  cases p <;> cases d <;> cases g <;> cases t <;>
    simp only [rawToObs] at h <;> simp_all
  obtain rfl := h.symm
  simp

/-- Every cleaned row comes from dropping nulls on the raw table. -/
lemma mem_dropNulls_of_mem_cleanRows {b : Bool} {raw : List RawObs} {r : Obs}
    (h : r ∈ cleanRows b raw) : r ∈ dropNulls raw := by
  cases b
  · simp only [cleanRows, Bool.false_eq_true, if_false] at h
    exact List.mem_of_mem_filter
      (mem_of_mem_uniqueByGo tripleKey _ [] r h)
  · simp only [cleanRows, if_true] at h
    exact mem_of_mem_uniqueByGo tripleKey _ [] r h

/-- C7: after exclusion filtering with the default exclusion set no cleaned
row has a tag in `DEFAULT_EXCLUDE_TAGS`; in either mode every cleaned row
stems from a raw row whose deployment, time and tag (and path) columns were
all non-null; and in `no_exclude` mode the exclusion-set removal is skipped,
so a row tagged "Blank" survives cleaning. -/
theorem exclusion_filter_props (raw : List RawObs) :
    (∀ r ∈ cleanRows false raw, DEFAULT_EXCLUDE_TAGS.contains r.tag = false) ∧
    (∀ (b : Bool), ∀ r ∈ cleanRows b raw, ∃ q ∈ raw,
      q.path = some r.path ∧ q.deployment = some r.deployment ∧
      q.tag = some r.tag ∧ q.time = some r.time) ∧
    cleanRows true [⟨some "p", some "d", some "Blank", some 0⟩] =
      [⟨"p", "d", "Blank", 0⟩] := by
  refine ⟨?_, ?_, by decide⟩
  · intro r hr
    simp only [cleanRows, Bool.false_eq_true, if_false] at hr
    have hf := List.mem_filter.mp (mem_of_mem_uniqueByGo tripleKey _ [] r hr)
    simpa using hf.2
  · intro b r hr
    obtain ⟨q, hq, hconv⟩ := List.mem_filterMap.mp
      (mem_dropNulls_of_mem_cleanRows hr)
    exact ⟨q, hq, rawToObs_eq_some hconv⟩

/-- Witness for C7: on a table with a null-deployment row, a "Blank" row
and a "Fox" row, the cleaned result satisfies the exclusion and null-drop
properties at the surviving Fox row. -/
theorem exclusion_filter_props_witness :
    DEFAULT_EXCLUDE_TAGS.contains (Obs.tag ⟨"a", "d", "Fox", 0⟩) = false ∧
    ∃ q ∈ [(⟨some "a", some "d", some "Fox", some 0⟩ : RawObs),
           ⟨some "b", none, some "Fox", some 5⟩,
           ⟨some "c", some "d", some "Blank", some 9⟩], q.path = some "a" ∧
      q.deployment = some "d" ∧ q.tag = some "Fox" ∧ q.time = some (0 : Int) :=
  ⟨(exclusion_filter_props
      [⟨some "a", some "d", some "Fox", some 0⟩,
       ⟨some "b", none, some "Fox", some 5⟩,
       ⟨some "c", some "d", some "Blank", some 9⟩]).1
      ⟨"a", "d", "Fox", 0⟩ (by decide),
   (exclusion_filter_props
      [⟨some "a", some "d", some "Fox", some 0⟩,
       ⟨some "b", none, some "Fox", some 5⟩,
       ⟨some "c", some "d", some "Blank", some 9⟩]).2.1
      false ⟨"a", "d", "Fox", 0⟩ (by decide)⟩

/-- C10: the gap test compares the signed difference `time - time_ref`, not
its absolute value: with a positive `min_delta_time`, a timestamp earlier
than the reference is never temporally independent, however large the
absolute gap. -/
theorem is_temporal_independent_signed (time_ref time min_delta_time : Int)
    (hmdt : 0 < min_delta_time) (hlt : time < time_ref) :
    is_temporal_independent time_ref time min_delta_time = false := by
  simp only [is_temporal_independent, decide_eq_false_iff_not, not_le]
  omega

/-- Witness for C10: a record a full 100000 seconds before the reference is
not independent even though the absolute gap far exceeds 30 minutes. -/
theorem is_temporal_independent_signed_witness :
    (0 : Int) < 30 ∧ (0 : Int) < 100000 ∧
      is_temporal_independent 100000 0 30 = false :=
  ⟨by decide, by decide,
    is_temporal_independent_signed 100000 0 30 (by decide) (by decide)⟩

/-- Extension of the gap chain by a new head whose successor (if any)
satisfies the gap condition. -/
lemma gapChained_cons (min_delta_time : Int) (r : Obs) (l : List Obs)
    (hhead : ∀ r2, l.head? = some r2 →
      r2.deployment = r.deployment ∧ r2.tag = r.tag →
      min_delta_time * 60 ≤ r2.time - r.time)
    (hl : gapChained min_delta_time l) : gapChained min_delta_time (r :: l) := by
  cases l with
  | nil => simp [gapChained]
  | cons r2 rest => exact ⟨fun h => hhead r2 rfl h, hl⟩

/-- Invariant of the Policy B scan: relative to the current trackers, the
first kept row of the same (deployment, tag) is at least `min_delta_time`
minutes after the tracked time, and the kept rows are gap-chained. -/
lemma policyB_scan_chained (min_delta_time : Int) :
    ∀ (rows : List Obs) (lt : Int) (ltag ldep : String),
      (∀ r, (maskFilter rows
          (policyBFlags rows lt ltag ldep min_delta_time)).head? = some r →
        r.tag = ltag ∧ r.deployment = ldep →
        min_delta_time * 60 ≤ r.time - lt) ∧
      gapChained min_delta_time
        (maskFilter rows (policyBFlags rows lt ltag ldep min_delta_time))
  | [], lt, ltag, ldep => by simp [policyBFlags, maskFilter, gapChained]
  | r :: rest, lt, ltag, ldep => by
    by_cases hc : r.tag ≠ ltag ∨ r.deployment ≠ ldep ∨
        is_temporal_independent lt r.time min_delta_time = true
    · have heq : maskFilter (r :: rest)
          (policyBFlags (r :: rest) lt ltag ldep min_delta_time) =
          r :: maskFilter rest
            (policyBFlags rest r.time r.tag r.deployment min_delta_time) := by
        simp only [policyBFlags]
        rw [if_pos hc]
        simp [maskFilter]
      obtain ⟨ih1, ih2⟩ :=
        policyB_scan_chained min_delta_time rest r.time r.tag r.deployment
      rw [heq]
      constructor
      · intro r' hr' hkeys
        have hrr : r' = r := by
          have := hr'
          simp only [List.head?_cons, Option.some.injEq] at this
          exact this.symm
        subst hrr
        rcases hc with h | h | h
        · exact absurd hkeys.1 h
        · exact absurd hkeys.2 h
        · simpa [is_temporal_independent] using h
      · refine gapChained_cons min_delta_time r _ ?_ ih2
        intro r2 h2 hk2
        exact ih1 r2 h2 ⟨hk2.2, hk2.1⟩
    · have heq : maskFilter (r :: rest)
          (policyBFlags (r :: rest) lt ltag ldep min_delta_time) =
          maskFilter rest (policyBFlags rest lt ltag ldep min_delta_time) := by
        simp only [policyBFlags]
        rw [if_neg hc]
        simp [maskFilter]
      rw [heq]
      exact policyB_scan_chained min_delta_time rest lt ltag ldep

/-- Index form of the gap chain: consecutive positions sharing deployment
and tag are at least `min_delta_time` minutes apart. -/
lemma gapChained_get (min_delta_time : Int) :
    ∀ (l : List Obs), gapChained min_delta_time l →
      ∀ (i : Nat) (h : i + 1 < l.length),
        (l.get ⟨i + 1, h⟩).deployment =
          (l.get ⟨i, Nat.lt_of_succ_lt h⟩).deployment →
        (l.get ⟨i + 1, h⟩).tag = (l.get ⟨i, Nat.lt_of_succ_lt h⟩).tag →
        min_delta_time * 60 ≤
          (l.get ⟨i + 1, h⟩).time - (l.get ⟨i, Nat.lt_of_succ_lt h⟩).time
  | [], _, i, h => by simp at h
  | [_], _, i, h => by simp at h
  | r1 :: r2 :: rest, hch, i, h => by
    cases i with
    | zero => exact fun hd ht => hch.1 ⟨hd, ht⟩
    | succ n =>
      exact gapChained_get min_delta_time (r2 :: rest) hch.2 n
        (Nat.lt_of_succ_lt_succ h)

/-- C1 (amended): under Policy B, any two consecutive independent records
(in scan order) sharing deployment and tag are at least `min_delta_time`
minutes apart — a non-strict bound: a gap of exactly `min_delta_time`
minutes IS marked independent, since `is_temporal_independent` tests with
`>=`. -/
theorem policyB_consecutive_gap (rows : List Obs) (min_delta_time : Int)
    (ind : List Obs) (h : independentB rows min_delta_time = some ind)
    (i : Nat) (hi : i + 1 < ind.length)
    (hdep : (ind.get ⟨i + 1, hi⟩).deployment =
      (ind.get ⟨i, Nat.lt_of_succ_lt hi⟩).deployment)
    (htag : (ind.get ⟨i + 1, hi⟩).tag = (ind.get ⟨i, Nat.lt_of_succ_lt hi⟩).tag) :
    min_delta_time * 60 ≤
      (ind.get ⟨i + 1, hi⟩).time - (ind.get ⟨i, Nat.lt_of_succ_lt hi⟩).time := by
  cases rows with
  | nil => simp [independentB, policyB] at h
  | cons r0 rest =>
    have hind : ind = r0 :: maskFilter rest
        (policyBFlags rest r0.time r0.tag r0.deployment min_delta_time) := by
      simp only [independentB, policyB, Option.map_some'] at h
      have := h.symm
      simpa [maskFilter] using this
    obtain ⟨ih1, ih2⟩ :=
      policyB_scan_chained min_delta_time rest r0.time r0.tag r0.deployment
    have hch : gapChained min_delta_time ind := by
      rw [hind]
      refine gapChained_cons min_delta_time r0 _ ?_ ih2
      intro r2 h2 hk2
      exact ih1 r2 h2 ⟨hk2.2, hk2.1⟩
    exact gapChained_get min_delta_time ind hch i hi hdep htag

/-- Counterexample to C1 as stated: with `min_delta_time` = 30 a second Fox
record exactly 30 minutes (1800 s) after the first is marked independent,
so consecutive independent records of the same (deployment, tag) can be
exactly `min_delta_time` apart: the claimed strict inequality fails. -/
theorem policyB_exact_gap_counterexample :
    independentB [⟨"a", "d", "Fox", 0⟩, ⟨"b", "d", "Fox", 1800⟩] 30 =
      some [⟨"a", "d", "Fox", 0⟩, ⟨"b", "d", "Fox", 1800⟩] ∧
    ¬ (30 * 60 < (1800 : Int) - 0) := by decide

/-- Witness for the amended C1 on the spec's example: records at 10:00 and
10:50 are consecutive independent Fox records and 50 minutes ≥ 30
minutes. -/
theorem policyB_consecutive_gap_witness :
    30 * 60 ≤
      (([⟨"a", "d", "Fox", 0⟩, ⟨"c", "d", "Fox", 3000⟩] : List Obs).get
        ⟨1, by decide⟩).time -
      (([⟨"a", "d", "Fox", 0⟩, ⟨"c", "d", "Fox", 3000⟩] : List Obs).get
        ⟨0, by decide⟩).time :=
  policyB_consecutive_gap
    [⟨"a", "d", "Fox", 0⟩, ⟨"b", "d", "Fox", 900⟩, ⟨"c", "d", "Fox", 3000⟩] 30
    [⟨"a", "d", "Fox", 0⟩, ⟨"c", "d", "Fox", 3000⟩] (by decide) 0 (by decide)
    (by decide) (by decide)

/-- A duplicate-free list in which every element equals `r` has at most one
element. -/
lemma length_le_one_of_all_eq {α : Type} (r : α) :
    ∀ (l : List α), l.Nodup → (∀ x ∈ l, x = r) → l.length ≤ 1
  | [], _, _ => by simp
  | [_], _, _ => by simp
  | x :: y :: t, hnd, hall => by
    have hx : x = r := hall x (List.mem_cons_self _ _)
    have hy : y = r := hall y (List.mem_cons_of_mem _ (List.mem_cons_self _ _))
    have hne : x ≠ y := (List.pairwise_cons.mp hnd).1 y (List.mem_cons_self _ _)
    exact absurd (hx.trans hy.symm) hne

/-- Tables with pairwise-distinct (deployment, time, tag) triples have no
duplicate rows. -/
lemma nodup_of_pairwise_distinctTriple {rows : List Obs}
    (h : rows.Pairwise distinctTriple) : rows.Nodup :=
  h.imp (fun hab heq => hab (congrArg tripleKey heq))

/-- C2: under Policy A (LastRecord) on a deduplicated table with a positive
`min_delta_time`, a record is retained as independent iff it is a table row
and no other row of the same (deployment, tag) has its time in the
right-closed trailing window `(r.time - min_delta_time, r.time]` — i.e. the
only row of that group in the record's own trailing window is the record
itself, regardless of the independence flags of earlier rows. -/
theorem policyA_window_property (rows : List Obs) (min_delta_time : Int)
    (r : Obs) (hnd : rows.Pairwise distinctTriple) (hmdt : 0 < min_delta_time) :
    r ∈ policyA rows min_delta_time ↔
      r ∈ rows ∧ ∀ s ∈ rows, s.deployment = r.deployment → s.tag = r.tag →
        r.time - min_delta_time * 60 < s.time → s.time ≤ r.time → s = r := by
  have hpr : ∀ s : Obs, (s.deployment == r.deployment && s.tag == r.tag &&
      decide (r.time - min_delta_time * 60 < s.time) &&
      decide (s.time ≤ r.time)) = true ↔
      (s.deployment = r.deployment ∧ s.tag = r.tag ∧
        r.time - min_delta_time * 60 < s.time ∧ s.time ≤ r.time) := by
    intro s
    simp [Bool.and_assoc, and_assoc]
  have hself : (r.deployment == r.deployment && r.tag == r.tag &&
      decide (r.time - min_delta_time * 60 < r.time) &&
      decide (r.time ≤ r.time)) = true := by
    rw [hpr]
    refine ⟨rfl, rfl, ?_, le_refl _⟩
    omega
  constructor
  · intro h
    have hmem := List.mem_filter.mp h
    have hr : r ∈ rows := hmem.1
    have hcount : windowCount rows r min_delta_time = 1 := by
      have := hmem.2
      simpa using this
    refine ⟨hr, ?_⟩
    intro s hs h1 h2 h3 h4
    obtain ⟨a, ha⟩ := List.length_eq_one.mp hcount
    have hrin : r ∈ rows.filter (fun s => s.deployment == r.deployment &&
        s.tag == r.tag && decide (r.time - min_delta_time * 60 < s.time) &&
        decide (s.time ≤ r.time)) :=
      List.mem_filter.mpr ⟨hr, hself⟩
    have hsin : s ∈ rows.filter (fun s => s.deployment == r.deployment &&
        s.tag == r.tag && decide (r.time - min_delta_time * 60 < s.time) &&
        decide (s.time ≤ r.time)) :=
      List.mem_filter.mpr ⟨hs, (hpr s).mpr ⟨h1, h2, h3, h4⟩⟩
    rw [windowCount, ha] at hcount
    rw [ha] at hrin hsin
    have h5 := List.mem_singleton.mp hrin
    have h6 := List.mem_singleton.mp hsin
    exact h6.trans h5.symm
  · rintro ⟨hr, honly⟩
    refine List.mem_filter.mpr ⟨hr, ?_⟩
    have hall : ∀ x ∈ rows.filter (fun s => s.deployment == r.deployment &&
        s.tag == r.tag && decide (r.time - min_delta_time * 60 < s.time) &&
        decide (s.time ≤ r.time)), x = r := by
      intro x hx
      have hx' := List.mem_filter.mp hx
      obtain ⟨h1, h2, h3, h4⟩ := (hpr x).mp hx'.2
      exact honly x hx'.1 h1 h2 h3 h4
    have hnd' := (nodup_of_pairwise_distinctTriple hnd).filter
      (fun s => s.deployment == r.deployment && s.tag == r.tag &&
        decide (r.time - min_delta_time * 60 < s.time) && decide (s.time ≤ r.time))
    have hle := length_le_one_of_all_eq r _ hnd' hall
    have hge : 0 < (rows.filter (fun s => s.deployment == r.deployment &&
        s.tag == r.tag && decide (r.time - min_delta_time * 60 < s.time) &&
        decide (s.time ≤ r.time))).length :=
      List.length_pos.mpr (List.ne_nil_of_mem (List.mem_filter.mpr ⟨hr, hself⟩))
    have : windowCount rows r min_delta_time = 1 := by
      rw [windowCount]
      omega
    simpa using this

/-- Witness for C2 on the spec's example 2: the Fox record at 10:50 (3000 s)
is retained under Policy A with a 30-minute window, because no other Fox
record of the deployment lies in (10:20, 10:50]. -/
theorem policyA_window_property_witness :
    (⟨"c", "d", "Fox", 3000⟩ : Obs) ∈
      policyA [⟨"a", "d", "Fox", 0⟩, ⟨"b", "d", "Fox", 900⟩,
        ⟨"c", "d", "Fox", 3000⟩] 30 :=
  (policyA_window_property
    [⟨"a", "d", "Fox", 0⟩, ⟨"b", "d", "Fox", 900⟩, ⟨"c", "d", "Fox", 3000⟩]
    30 ⟨"c", "d", "Fox", 3000⟩ (by decide) (by decide)).mpr
    ⟨by decide, by decide⟩

/-- C5: the event_id values attached to the independence result by
`with_row_index("event_id", Some(1))` are exactly `row position + 1`: a
single global counter over the whole result set, positive, strictly
increasing in row order and starting at 1, never restarting per
(deployment, tag) group. -/
theorem event_id_assignment (l : List Obs) :
    (withRowIndex l).length = l.length ∧
    (∀ (i : Nat) (h : i < (withRowIndex l).length),
      ((withRowIndex l).get ⟨i, h⟩).1 = i + 1 ∧
      0 < ((withRowIndex l).get ⟨i, h⟩).1) ∧
    (∀ (i j : Nat) (hi : i < (withRowIndex l).length)
        (hj : j < (withRowIndex l).length), i < j →
      ((withRowIndex l).get ⟨i, hi⟩).1 < ((withRowIndex l).get ⟨j, hj⟩).1) := by
  have hfst : ∀ (i : Nat) (h : i < (withRowIndex l).length),
      ((withRowIndex l).get ⟨i, h⟩).1 = i + 1 := by
    intro i h
    simp [withRowIndex, List.get_eq_getElem, List.getElem_map, List.getElem_enum]
  refine ⟨by simp [withRowIndex], fun i h => ⟨hfst i h, ?_⟩, fun i j hi hj hij => ?_⟩
  · rw [hfst i h]
    omega
  · rw [hfst i hi, hfst j hj]
    omega

/-- Witness for C5: on a two-row independence result the first event id is
1 and the ids increase along row order. -/
theorem event_id_assignment_witness :
    ((withRowIndex [⟨"a", "d", "Fox", 0⟩, ⟨"c", "d", "Fox", 3000⟩]).get
      ⟨0, by decide⟩).1 = 0 + 1 ∧
    ((withRowIndex [⟨"a", "d", "Fox", 0⟩, ⟨"c", "d", "Fox", 3000⟩]).get
      ⟨0, by decide⟩).1 <
    ((withRowIndex [⟨"a", "d", "Fox", 0⟩, ⟨"c", "d", "Fox", 3000⟩]).get
      ⟨1, by decide⟩).1 :=
  ⟨((event_id_assignment [⟨"a", "d", "Fox", 0⟩, ⟨"c", "d", "Fox", 3000⟩]).2.1
      0 (by decide)).1,
   (event_id_assignment [⟨"a", "d", "Fox", 0⟩, ⟨"c", "d", "Fox", 3000⟩]).2.2
      0 1 (by decide) (by decide) (by decide)⟩

/-- C9: a non-positive `min_delta_time` is rejected with the validation
error before any classification or output stage runs (the run returns the
error whatever the policy, target or data); a value greater than 10080
minutes is never rejected by validation but trips the "unusually large"
note. -/
theorem min_delta_time_validation (min_delta_time : Int) (policy : Policy)
    (target : TagType) (no_exclude event : Bool) (raw : List RawObs) :
    (min_delta_time ≤ 0 →
      get_temporal_independence min_delta_time policy target no_exclude event raw =
        .error (.validation "Invalid time difference: must be greater than 0")) ∧
    (10080 < min_delta_time →
      (∀ msg, get_temporal_independence min_delta_time policy target no_exclude
          event raw ≠ .error (.validation msg)) ∧
      min_delta_time_unusual min_delta_time = true) := by
  constructor
  · intro h
    simp [get_temporal_independence, h]
  · intro h
    have h0 : ¬ min_delta_time ≤ 0 := by omega
    refine ⟨?_, by simpa [min_delta_time_unusual] using h⟩
    intro msg
    rcases hcl : classify policy (canonicalSort (cleanRows no_exclude raw))
        min_delta_time with _ | indep
    · simp [get_temporal_independence, if_neg h0, hcl]
    · simp [get_temporal_independence, if_neg h0, hcl]

/-- Witness for C9: min_delta_time = -5 is rejected with the validation
error; min_delta_time = 20000 is not rejected and is flagged unusual. -/
theorem min_delta_time_validation_witness :
    get_temporal_independence (-5) Policy.LastIndependentRecord TagType.Species
      false false [] =
      .error (.validation "Invalid time difference: must be greater than 0") ∧
    get_temporal_independence 20000 Policy.LastIndependentRecord TagType.Species
      false false [⟨some "a", some "d", some "Fox", some 0⟩] ≠
      .error (.validation "Invalid time difference: must be greater than 0") ∧
    min_delta_time_unusual 20000 = true :=
  ⟨(min_delta_time_validation (-5) Policy.LastIndependentRecord TagType.Species
      false false []).1 (by decide),
   ((min_delta_time_validation 20000 Policy.LastIndependentRecord TagType.Species
      false false [⟨some "a", some "d", some "Fox", some 0⟩]).2 (by decide)).1
      "Invalid time difference: must be greater than 0",
   ((min_delta_time_validation 20000 Policy.LastIndependentRecord TagType.Species
      false false [⟨some "a", some "d", some "Fox", some 0⟩]).2 (by decide)).2⟩

/-- C3 (code bug): on a table that is empty after filtering — here a single
raw record whose tag "Blank" is in the default exclusion set — the run does
not fail with a descriptive "no data" error: under Policy B
(LastIndependentRecord) the scan reads row 0 of the empty table and panics
with an index-out-of-bounds, and under Policy A (LastRecord) it proceeds
and produces empty outputs. -/
theorem empty_after_filter_no_graceful_error :
    get_temporal_independence 30 Policy.LastIndependentRecord TagType.Species
      false false [⟨some "a.jpg", some "d1", some "Blank", some 0⟩] =
      .error (.panicked "index out of bounds: the len is 0 but the index is 0") ∧
    get_temporal_independence 30 Policy.LastRecord TagType.Species
      false false [⟨some "a.jpg", some "d1", some "Blank", some 0⟩] =
      .ok { independence := [], events := none, countByDep := [],
            countAll := some [] } :=
  ⟨rfl, rfl⟩

/-- Sum of an equality indicator over pairwise-distinct keys containing the
probe is 1. -/
lemma sum_indicator_eq_one {κ : Type} [DecidableEq κ] (x : κ) :
    ∀ (keys : List κ), keys.Pairwise (· ≠ ·) → x ∈ keys →
      (keys.map (fun k => if x = k then 1 else 0)).sum = 1
  | [], _, hx => absurd hx (List.not_mem_nil x)
  | k :: ks, hpw, hx => by
    rcases List.mem_cons.mp hx with rfl | hx
    · have h0 : ∀ k2 ∈ ks, x ≠ k2 := (List.pairwise_cons.mp hpw).1
      have hz : (ks.map (fun k2 => if x = k2 then 1 else 0)).sum = 0 := by
        apply List.sum_eq_zero
        intro y hy
        obtain ⟨k2, hk2, rfl⟩ := List.mem_map.mp hy
        simp [h0 k2 hk2]
      simp [hz]
    · have hne : x ≠ k := Ne.symm ((List.pairwise_cons.mp hpw).1 x hx)
      have ih := sum_indicator_eq_one x ks (List.pairwise_cons.mp hpw).2 hx
      simp [hne, ih]

/-- Sum of an equality indicator over keys not containing the probe is 0. -/
lemma sum_indicator_eq_zero {κ : Type} [DecidableEq κ] (x : κ) (keys : List κ)
    (hx : x ∉ keys) :
    (keys.map (fun k => if x = k then 1 else 0)).sum = 0 := by
  apply List.sum_eq_zero
  intro y hy
  obtain ⟨k, hk, rfl⟩ := List.mem_map.mp hy
  have : x ≠ k := fun h => hx (h ▸ hk)
  simp [this]

/-- Partition lemma for group-by-count: summing the per-key counts over a
duplicate-free key list that covers (exactly) the keys satisfying `pred`
yields the count of rows whose key satisfies `pred`. -/
lemma countP_partition {κ : Type} [DecidableEq κ] (keyf : Obs → κ)
    (pred : κ → Bool) :
    ∀ (l : List Obs) (keys : List κ), keys.Pairwise (· ≠ ·) →
      (∀ r ∈ l, pred (keyf r) = true → keyf r ∈ keys) →
      (∀ k ∈ keys, pred k = true) →
      (keys.map (fun k => l.countP (fun r => decide (keyf r = k)))).sum =
        l.countP (fun r => pred (keyf r))
  | [], keys, _, _, _ => by
    rw [List.countP_nil]
    apply List.sum_eq_zero
    intro y hy
    obtain ⟨k, _, rfl⟩ := List.mem_map.mp hy
    exact List.countP_nil _
  | r :: rest, keys, hpw, hcov, hpred => by
    have hcov' : ∀ s ∈ rest, pred (keyf s) = true → keyf s ∈ keys :=
      fun s hs => hcov s (List.mem_cons_of_mem _ hs)
    have ih := countP_partition keyf pred rest keys hpw hcov' hpred
    have hstep : (keys.map (fun k =>
        (r :: rest).countP (fun s => decide (keyf s = k)))).sum =
        (keys.map (fun k => rest.countP (fun s => decide (keyf s = k)) +
          (if keyf r = k then 1 else 0))).sum := by
      congr 1
      apply List.map_congr_left
      intro k _
      rw [List.countP_cons]
      simp
    rw [hstep, List.sum_map_add, ih, List.countP_cons]
    by_cases hp : pred (keyf r) = true
    · rw [sum_indicator_eq_one (keyf r) keys hpw
        (hcov r (List.mem_cons_self _ _) hp)]
      simp [hp]
    · have hnot : keyf r ∉ keys := fun hmem => hp (hpred _ hmem)
      rw [sum_indicator_eq_zero (keyf r) keys hnot]
      simp [hp]

/-- C8: when the target is species, for every tag row (tag, c) of the
global `count_all` table, the counts of the `count_by_deployment` rows
carrying that tag sum to c — both tables being group-by-count reductions of
the same independence result. -/
theorem aggregation_consistency (l : List Obs) (t : String) (c : Nat)
    (h : (t, c) ∈ countByTag l) :
    (((countByDepTag l).filter (fun p => decide (p.1.2 = t))).map Prod.snd).sum
      = c := by
  obtain ⟨t', ht', heq⟩ := List.mem_map.mp h
  obtain ⟨rfl, rfl⟩ : t' = t ∧ l.countP (fun r => decide (r.tag = t')) = c := by
    have h1 := congrArg Prod.fst heq
    have h2 := congrArg Prod.snd heq
    simp only at h1 h2
    subst h1
    exact ⟨rfl, h2⟩
  have hpw : ((firstSeen (l.map (fun r => (r.deployment, r.tag)))).filter
      (fun k => decide (k.2 = t'))).Pairwise (· ≠ ·) :=
    (firstSeen_pairwise _).filter _
  have hcov : ∀ r ∈ l, (fun k => decide (k.2 = t')) ((r.deployment, r.tag)) = true →
      (r.deployment, r.tag) ∈ (firstSeen (l.map (fun r => (r.deployment, r.tag)))).filter
        (fun k => decide (k.2 = t')) := by
    intro r hr hp
    exact List.mem_filter.mpr
      ⟨(mem_firstSeen _ _).mpr (List.mem_map_of_mem _ hr), hp⟩
  have hpred : ∀ k ∈ (firstSeen (l.map (fun r => (r.deployment, r.tag)))).filter
      (fun k => decide (k.2 = t')), (fun k => decide (k.2 = t')) k = true :=
    fun k hk => (List.mem_filter.mp hk).2
  have hmain := countP_partition (fun r => (r.deployment, r.tag))
    (fun k => decide (k.2 = t')) l
    ((firstSeen (l.map (fun r => (r.deployment, r.tag)))).filter
      (fun k => decide (k.2 = t'))) hpw hcov hpred
  calc (((countByDepTag l).filter (fun p => decide (p.1.2 = t'))).map Prod.snd).sum
      = (((firstSeen (l.map (fun r => (r.deployment, r.tag)))).filter
          (fun k => decide (k.2 = t'))).map
          (fun k => l.countP (fun r => decide ((r.deployment, r.tag) = k)))).sum := by
        rw [countByDepTag, List.filter_map, List.map_map]
        rfl
    _ = l.countP (fun r => decide (r.tag = t')) := hmain

/-- Witness for C8: with Fox at two deployments and Wolf at one, the Fox
rows of count_by_deployment (1 + 1) sum to the Fox row of count_all (2). -/
theorem aggregation_consistency_witness :
    (((countByDepTag [⟨"a", "d1", "Fox", 0⟩, ⟨"b", "d2", "Fox", 50⟩,
        ⟨"c", "d1", "Wolf", 100⟩]).filter
      (fun p => decide (p.1.2 = "Fox"))).map Prod.snd).sum = 2 :=
  aggregation_consistency
    [⟨"a", "d1", "Fox", 0⟩, ⟨"b", "d2", "Fox", 50⟩, ⟨"c", "d1", "Wolf", 100⟩]
    "Fox" 2 (by decide)

/-- Reflexivity of the character-list comparison. -/
lemma charListLe_refl : ∀ (l : List Char), charListLe l l = true
  | [] => rfl
  | a :: as => by simp [charListLe, charListLe_refl as]

/-- Totality of the character-list comparison. -/
lemma charListLe_total : ∀ (x y : List Char),
    charListLe x y = true ∨ charListLe y x = true
  | [], _ => Or.inl rfl
  | _ :: _, [] => Or.inr rfl
  | a :: as, b :: bs => by
    simp only [charListLe]
    rcases Nat.lt_trichotomy a.toNat b.toNat with h | h | h
    · left
      rw [if_pos h]
    · rw [if_neg (by omega), if_neg (by omega), if_neg (by omega), if_neg (by omega)]
      exact charListLe_total as bs
    · right
      rw [if_pos h]

/-- Transitivity of the character-list comparison. -/
lemma charListLe_trans : ∀ (x y z : List Char), charListLe x y = true →
    charListLe y z = true → charListLe x z = true
  | [], _, _ => fun _ _ => rfl
  | _ :: _, [], _ => fun h _ => absurd h (by simp [charListLe])
  | _ :: _, _ :: _, [] => fun _ h => absurd h (by simp [charListLe])
  | a :: as, b :: bs, c :: cs => by
    intro hxy hyz
    have hab : ¬ b.toNat < a.toNat := by
      intro h
      rw [charListLe, if_neg (by omega), if_pos h] at hxy
      exact Bool.noConfusion hxy
    have hbc : ¬ c.toNat < b.toNat := by
      intro h
      rw [charListLe, if_neg (by omega), if_pos h] at hyz
      exact Bool.noConfusion hyz
    by_cases hac : a.toNat < c.toNat
    · rw [charListLe, if_pos hac]
    · have heq1 : a.toNat = b.toNat := by omega
      have heq2 : b.toNat = c.toNat := by omega
      rw [charListLe, if_neg (by omega), if_neg (by omega)] at hxy hyz ⊢
      exact charListLe_trans as bs cs hxy hyz

/-- Antisymmetry of the character-list comparison. -/
lemma charListLe_antisymm : ∀ (x y : List Char), charListLe x y = true →
    charListLe y x = true → x = y
  | [], [] => fun _ _ => rfl
  | [], _ :: _ => fun _ h => absurd h (by simp [charListLe])
  | _ :: _, [] => fun h _ => absurd h (by simp [charListLe])
  | a :: as, b :: bs => by
    intro hxy hyx
    have hab : ¬ b.toNat < a.toNat := by
      intro h
      rw [charListLe, if_neg (by omega), if_pos h] at hxy
      exact Bool.noConfusion hxy
    have hba : ¬ a.toNat < b.toNat := by
      intro h
      rw [charListLe, if_neg (by omega), if_pos h] at hyx
      exact Bool.noConfusion hyx
    have hchar : a = b := Char.eq_of_val_eq (by
      apply UInt32.eq_of_val_eq
      apply Fin.ext
      have : a.toNat = b.toNat := by omega
      exact this)
    rw [charListLe, if_neg hba, if_neg hab] at hxy
    rw [charListLe, if_neg hab, if_neg hba] at hyx
    rw [hchar, charListLe_antisymm as bs hxy hyx]

/-- Reflexivity of the string comparison. -/
lemma strLe_refl (s : String) : strLe s s = true :=
  charListLe_refl s.data

/-- Totality of the string comparison. -/
lemma strLe_total (x y : String) : strLe x y = true ∨ strLe y x = true :=
  charListLe_total x.data y.data

/-- Transitivity of the string comparison. -/
lemma strLe_trans (x y z : String) (h1 : strLe x y = true)
    (h2 : strLe y z = true) : strLe x z = true :=
  charListLe_trans x.data y.data z.data h1 h2

/-- Antisymmetry of the string comparison. -/
lemma strLe_antisymm (x y : String) (h1 : strLe x y = true)
    (h2 : strLe y x = true) : x = y :=
  String.toList_inj.mp (charListLe_antisymm x.data y.data h1 h2)

/-- Membership after ordered insertion. -/
lemma mem_insertKey {α : Type} (le : α → α → Bool) (a x : α) :
    ∀ (l : List α), x ∈ insertKey le a l ↔ x = a ∨ x ∈ l
  | [] => by simp [insertKey]
  | b :: l => by
    simp only [insertKey]
    by_cases h : le a b = true
    · rw [if_pos h]
      simp [List.mem_cons]
    · rw [if_neg h]
      simp only [List.mem_cons, mem_insertKey le a x l]
      tauto

/-- Ordered insertion permutes the cons. -/
lemma insertKey_perm {α : Type} (le : α → α → Bool) (a : α) :
    ∀ (l : List α), (insertKey le a l).Perm (a :: l)
  | [] => List.Perm.refl _
  | b :: l => by
    simp only [insertKey]
    by_cases h : le a b = true
    · rw [if_pos h]
    · rw [if_neg h]
      exact ((insertKey_perm le a l).cons b).trans (List.Perm.swap a b l)

/-- The stable sort permutes its input. -/
lemma sortByKey_perm {α : Type} (le : α → α → Bool) :
    ∀ (l : List α), (sortByKey le l).Perm l
  | [] => List.Perm.refl _
  | a :: l => (insertKey_perm le a _).trans ((sortByKey_perm le l).cons a)

/-- First component of the stability relation. -/
lemma stableRel_le {α : Type} {le : α → α → Bool} {S : α → α → Prop} {x y : α}
    (h : stableRel le S x y) : le x y = true := by
  rcases h with ⟨h1, _⟩ | ⟨h1, _, _⟩ <;> exact h1

/-- On a key tie the stability relation degenerates to the inner
relation. -/
lemma stableRel_eq_inner {α : Type} {le : α → α → Bool} {S : α → α → Prop}
    {x y : α} (h : stableRel le S x y) (hyx : le y x = true) : S x y := by
  rcases h with ⟨_, hf⟩ | ⟨_, _, hS⟩
  · rw [hyx] at hf
    exact Bool.noConfusion hf
  · exact hS

/-- Ordered insertion preserves the stability invariant: inserting an
element that is `S`-below the whole list into a `stableRel`-sorted list
yields a `stableRel`-sorted list. -/
lemma insertKey_pairwise {α : Type} {le : α → α → Bool} {S : α → α → Prop}
    (htot : ∀ x y, le x y = true ∨ le y x = true)
    (htrans : ∀ x y z, le x y = true → le y z = true → le x z = true) (a : α) :
    ∀ (l : List α), l.Pairwise (stableRel le S) → (∀ b ∈ l, S a b) →
      (insertKey le a l).Pairwise (stableRel le S)
  | [], _, _ => by simp [insertKey]
  | b :: l, hpw, hS => by
    simp only [insertKey]
    have hpc := List.pairwise_cons.mp hpw
    by_cases h : le a b = true
    · rw [if_pos h]
      refine List.pairwise_cons.mpr ⟨?_, hpw⟩
      intro x hx
      rcases List.mem_cons.mp hx with rfl | hx
      · by_cases hba : le x a = true
        · exact Or.inr ⟨h, hba, hS x (List.mem_cons_self _ _)⟩
        · exact Or.inl ⟨h, by simpa using hba⟩
      · have hbx : le b x = true := stableRel_le (hpc.1 x hx)
        have hax : le a x = true := htrans a b x h hbx
        by_cases hxa : le x a = true
        · exact Or.inr ⟨hax, hxa, hS x (List.mem_cons_of_mem _ hx)⟩
        · exact Or.inl ⟨hax, by simpa using hxa⟩
    · rw [if_neg h]
      refine List.pairwise_cons.mpr ⟨?_, insertKey_pairwise htot htrans a l hpc.2
        (fun x hx => hS x (List.mem_cons_of_mem _ hx))⟩
      intro x hx
      rcases (mem_insertKey le a x l).mp hx with rfl | hx
      · have hba : le b x = true := (htot x b).resolve_left h
        exact Or.inl ⟨hba, by simpa using h⟩
      · exact hpc.1 x hx

/-- Trivial pairwise relation. -/
lemma pairwise_trivial {α : Type} : ∀ (l : List α), l.Pairwise (fun _ _ => True)
  | [] => List.Pairwise.nil
  | _ :: l => List.Pairwise.cons (fun _ _ => trivial) (pairwise_trivial l)

/-- Stability of the insertion sort: sorting a list that is pairwise `S`
yields a list pairwise in `stableRel le S` — key ties keep their previous
relative `S`-order. -/
lemma sortByKey_pairwise {α : Type} {le : α → α → Bool} {S : α → α → Prop}
    (htot : ∀ x y, le x y = true ∨ le y x = true)
    (htrans : ∀ x y z, le x y = true → le y z = true → le x z = true) :
    ∀ (l : List α), l.Pairwise S → (sortByKey le l).Pairwise (stableRel le S)
  | [], _ => by simp [sortByKey]
  | a :: l, hpw => by
    have hpc := List.pairwise_cons.mp hpw
    refine insertKey_pairwise htot htrans a (sortByKey le l)
      (sortByKey_pairwise htot htrans l hpc.2) ?_
    intro b hb
    exact hpc.1 b ((sortByKey_perm le l).mem_iff.mp hb)

/-- Totality of the time key. -/
lemma timeLe_total (a b : Obs) : timeLe a b = true ∨ timeLe b a = true := by
  simp only [timeLe, decide_eq_true_eq]
  omega

/-- Transitivity of the time key. -/
lemma timeLe_trans (a b c : Obs) (h1 : timeLe a b = true)
    (h2 : timeLe b c = true) : timeLe a c = true := by
  simp only [timeLe, decide_eq_true_eq] at h1 h2 ⊢
  omega

/-- Totality of the tag key. -/
lemma tagLe_total (a b : Obs) : tagLe a b = true ∨ tagLe b a = true :=
  strLe_total a.tag b.tag

/-- Transitivity of the tag key. -/
lemma tagLe_trans (a b c : Obs) (h1 : tagLe a b = true)
    (h2 : tagLe b c = true) : tagLe a c = true :=
  strLe_trans a.tag b.tag c.tag h1 h2

/-- Totality of the deployment key. -/
lemma depLe_total (a b : Obs) : depLe a b = true ∨ depLe b a = true :=
  strLe_total a.deployment b.deployment

/-- Transitivity of the deployment key. -/
lemma depLe_trans (a b c : Obs) (h1 : depLe a b = true)
    (h2 : depLe b c = true) : depLe a c = true :=
  strLe_trans a.deployment b.deployment c.deployment h1 h2

/-- Counterexample to C4 as stated: the three `sort` calls use
`SortMultipleOptions::default()`, whose `maintain_order` is false, so each
step may permute key-equal rows arbitrarily.  Here every step satisfies the
sort contract, yet the final output has two rows of equal (deployment, tag)
in strictly descending time order. -/
theorem canonical_sort_unstable_counterexample :
    SortStepSpec timeLe
      [⟨"p1", "d", "A", 0⟩, ⟨"p2", "d", "A", 60⟩]
      [⟨"p1", "d", "A", 0⟩, ⟨"p2", "d", "A", 60⟩] ∧
    SortStepSpec tagLe
      [⟨"p1", "d", "A", 0⟩, ⟨"p2", "d", "A", 60⟩]
      [⟨"p2", "d", "A", 60⟩, ⟨"p1", "d", "A", 0⟩] ∧
    SortStepSpec depLe
      [⟨"p2", "d", "A", 60⟩, ⟨"p1", "d", "A", 0⟩]
      [⟨"p2", "d", "A", 60⟩, ⟨"p1", "d", "A", 0⟩] ∧
    (([⟨"p2", "d", "A", 60⟩, ⟨"p1", "d", "A", 0⟩] : List Obs).get
      ⟨0, by decide⟩).deployment =
      (([⟨"p2", "d", "A", 60⟩, ⟨"p1", "d", "A", 0⟩] : List Obs).get
        ⟨1, by decide⟩).deployment ∧
    (([⟨"p2", "d", "A", 60⟩, ⟨"p1", "d", "A", 0⟩] : List Obs).get
      ⟨0, by decide⟩).tag =
      (([⟨"p2", "d", "A", 60⟩, ⟨"p1", "d", "A", 0⟩] : List Obs).get
        ⟨1, by decide⟩).tag ∧
    ¬ ((([⟨"p2", "d", "A", 60⟩, ⟨"p1", "d", "A", 0⟩] : List Obs).get
        ⟨0, by decide⟩).time ≤
      (([⟨"p2", "d", "A", 60⟩, ⟨"p1", "d", "A", 0⟩] : List Obs).get
        ⟨1, by decide⟩).time) := by
  refine ⟨⟨?_, ?_⟩, ⟨?_, ?_⟩, ⟨?_, ?_⟩, rfl, rfl, by decide⟩
  · exact List.Perm.refl _
  · decide
  · exact List.Perm.swap _ _ _
  · decide
  · exact List.Perm.refl _
  · decide

/-- C4 (amended): when every sort pass is stable (which
`SortMultipleOptions::default()` does not request — `maintain_order` is
false — but a stable realisation such as the insertion-sort chain
provides), each pass satisfies the polars sort contract and the final
order groups rows by deployment and tag contiguously with ascending time
inside each group. -/
theorem canonical_sort_grouping (l : List Obs) :
    SortStepSpec timeLe l (sortByKey timeLe l) ∧
    SortStepSpec tagLe (sortByKey timeLe l) (sortByKey tagLe (sortByKey timeLe l)) ∧
    SortStepSpec depLe (sortByKey tagLe (sortByKey timeLe l)) (canonicalSort l) ∧
    (∀ (i j : Nat) (hi : i < (canonicalSort l).length)
        (hj : j < (canonicalSort l).length), i < j →
      ((canonicalSort l).get ⟨i, hi⟩).deployment =
        ((canonicalSort l).get ⟨j, hj⟩).deployment →
      ((canonicalSort l).get ⟨i, hi⟩).tag = ((canonicalSort l).get ⟨j, hj⟩).tag →
      ((canonicalSort l).get ⟨i, hi⟩).time ≤ ((canonicalSort l).get ⟨j, hj⟩).time) ∧
    (∀ (i j k : Nat) (hi : i < (canonicalSort l).length)
        (hj : j < (canonicalSort l).length) (hk : k < (canonicalSort l).length),
      i < j → j < k →
      ((canonicalSort l).get ⟨i, hi⟩).deployment =
        ((canonicalSort l).get ⟨k, hk⟩).deployment →
      ((canonicalSort l).get ⟨i, hi⟩).tag = ((canonicalSort l).get ⟨k, hk⟩).tag →
      ((canonicalSort l).get ⟨j, hj⟩).deployment =
        ((canonicalSort l).get ⟨i, hi⟩).deployment ∧
      ((canonicalSort l).get ⟨j, hj⟩).tag = ((canonicalSort l).get ⟨i, hi⟩).tag) := by
  have h1 : (sortByKey timeLe l).Pairwise (fun a b => timeLe a b = true) :=
    (sortByKey_pairwise timeLe_total timeLe_trans l (pairwise_trivial l)).imp
      stableRel_le
  have h2 : (sortByKey tagLe (sortByKey timeLe l)).Pairwise
      (stableRel tagLe (fun a b => timeLe a b = true)) :=
    sortByKey_pairwise tagLe_total tagLe_trans _ h1
  have h3 : (canonicalSort l).Pairwise
      (stableRel depLe (stableRel tagLe (fun a b => timeLe a b = true))) :=
    sortByKey_pairwise depLe_total depLe_trans _ h2
  have hget : ∀ (i j : Fin (canonicalSort l).length), i < j →
      stableRel depLe (stableRel tagLe (fun a b => timeLe a b = true))
        ((canonicalSort l).get i) ((canonicalSort l).get j) :=
    fun i j hij => List.pairwise_iff_get.mp h3 i j hij
  refine ⟨⟨sortByKey_perm _ l, (sortByKey_pairwise timeLe_total timeLe_trans l
      (pairwise_trivial l)).imp stableRel_le⟩,
    ⟨sortByKey_perm _ _, h2.imp stableRel_le⟩,
    ⟨sortByKey_perm _ _, h3.imp stableRel_le⟩, ?_, ?_⟩
  · intro i j hi hj hij hdep htag
    have hC := hget ⟨i, hi⟩ ⟨j, hj⟩ (Fin.mk_lt_mk.mpr hij)
    have hdy : depLe ((canonicalSort l).get ⟨j, hj⟩)
        ((canonicalSort l).get ⟨i, hi⟩) = true := by
      simp only [depLe]
      rw [hdep]
      exact strLe_refl _
    have hC2 := stableRel_eq_inner hC hdy
    have hty : tagLe ((canonicalSort l).get ⟨j, hj⟩)
        ((canonicalSort l).get ⟨i, hi⟩) = true := by
      simp only [tagLe]
      rw [htag]
      exact strLe_refl _
    have hC1 := stableRel_eq_inner hC2 hty
    simpa [timeLe] using hC1
  · intro i j k hi hj hk hij hjk hdep htag
    have hCij := hget ⟨i, hi⟩ ⟨j, hj⟩ (Fin.mk_lt_mk.mpr hij)
    have hCjk := hget ⟨j, hj⟩ ⟨k, hk⟩ (Fin.mk_lt_mk.mpr hjk)
    have hdij := stableRel_le hCij
    have hdjk := stableRel_le hCjk
    simp only [depLe] at hdij hdjk
    rw [← hdep] at hdjk
    have hdeq : ((canonicalSort l).get ⟨i, hi⟩).deployment =
        ((canonicalSort l).get ⟨j, hj⟩).deployment :=
      strLe_antisymm _ _ hdij hdjk
    have hC2ij := stableRel_eq_inner hCij (by
      simp only [depLe]
      rw [hdeq]
      exact strLe_refl _)
    have hC2jk := stableRel_eq_inner hCjk (by
      simp only [depLe]
      rw [← hdep, hdeq]
      exact strLe_refl _)
    have htij := stableRel_le hC2ij
    have htjk := stableRel_le hC2jk
    simp only [tagLe] at htij htjk
    rw [← htag] at htjk
    have hteq : ((canonicalSort l).get ⟨i, hi⟩).tag =
        ((canonicalSort l).get ⟨j, hj⟩).tag :=
      strLe_antisymm _ _ htij htjk
    exact ⟨hdeq.symm, hteq.symm⟩

/-- Witness for the amended C4: sorting three equal-(deployment, tag) rows
given in scrambled time order, the stable chain puts them in ascending time
order and keeps the group contiguous. -/
theorem canonical_sort_grouping_witness :
    ((canonicalSort [⟨"p2", "d", "A", 60⟩, ⟨"p1", "d", "A", 0⟩,
      ⟨"p3", "d", "A", 120⟩]).get ⟨0, by decide⟩).time ≤
    ((canonicalSort [⟨"p2", "d", "A", 60⟩, ⟨"p1", "d", "A", 0⟩,
      ⟨"p3", "d", "A", 120⟩]).get ⟨1, by decide⟩).time ∧
    (((canonicalSort [⟨"p2", "d", "A", 60⟩, ⟨"p1", "d", "A", 0⟩,
      ⟨"p3", "d", "A", 120⟩]).get ⟨1, by decide⟩).deployment =
    ((canonicalSort [⟨"p2", "d", "A", 60⟩, ⟨"p1", "d", "A", 0⟩,
      ⟨"p3", "d", "A", 120⟩]).get ⟨0, by decide⟩).deployment ∧
    ((canonicalSort [⟨"p2", "d", "A", 60⟩, ⟨"p1", "d", "A", 0⟩,
      ⟨"p3", "d", "A", 120⟩]).get ⟨1, by decide⟩).tag =
    ((canonicalSort [⟨"p2", "d", "A", 60⟩, ⟨"p1", "d", "A", 0⟩,
      ⟨"p3", "d", "A", 120⟩]).get ⟨0, by decide⟩).tag) :=
  ⟨(canonical_sort_grouping [⟨"p2", "d", "A", 60⟩, ⟨"p1", "d", "A", 0⟩,
      ⟨"p3", "d", "A", 120⟩]).2.2.2.1 0 1 (by decide) (by decide) (by decide)
      (by decide) (by decide),
   (canonical_sort_grouping [⟨"p2", "d", "A", 60⟩, ⟨"p1", "d", "A", 0⟩,
      ⟨"p3", "d", "A", 120⟩]).2.2.2.2 0 1 2 (by decide) (by decide) (by decide)
      (by decide) (by decide) (by decide) (by decide)⟩
